import Mathlib

/-!
Verification of the Hybrid Retrieval Engine of `ai-dev-lab`
(`lab/rag/{chunk,retrieve,embed,vector,hybrid}.py`) via a shallow
embedding.  Python strings are `String`, Python ints are `Int`/`Nat`,
Python floats are modelled as `ℚ` (exact arithmetic stands in for IEEE
doubles), exceptions are `Except`/`Option` results.
-/

set_option autoImplicit false

namespace AiDevLab

/-! ### Data model (`spec` §3, `lab/rag/chunk.py`) -/

/-- A source document: one record of the ingestion layer,
`{id, text, source}`. -/
structure Doc where
  id : String
  text : String
  source : String
  deriving DecidableEq, Repr

/-- A chunk produced by `chunk_records`: `{'id','text','meta'}` where
`meta` is the owning document record. -/
structure Chunk where
  id : String
  text : String
  meta : Doc
  deriving DecidableEq, Repr

/-! ### Sentence splitting (`lab/rag/chunk.py`, `simple_sentence_split`)

The Python code is `re.split(r'(?<=[.!?])\s+', text.strip())` followed by
dropping empty pieces.  The regex splits the stripped text at every
maximal whitespace run whose immediately preceding character is one of
`.`, `!`, `?`. -/

/-- Python `\s` / `str.strip` whitespace (ASCII part; the corpus model is
ASCII text). -/
def isPySpace (c : Char) : Bool :=
  c == ' ' || c == '\t' || c == '\n' || c == '\x0d' || c == '\x0b' ||
  c == '\x0c'

/-- End-of-sentence terminal punctuation `[.!?]`. -/
def isSentTerm (c : Char) : Bool :=
  c == '.' || c == '!' || c == '?'

/-- `str.strip()` on the character list: drop leading and trailing
whitespace. -/
def pyStrip (l : List Char) : List Char :=
  ((l.dropWhile isPySpace).reverse.dropWhile isPySpace).reverse

/-- Does the (reversed) current piece end in terminal punctuation?  `cur`
holds the piece read so far in reverse order, so its head is the most
recently consumed character. -/
def headIsTerm : List Char → Bool
  | [] => false
  | c :: _ => isSentTerm c

/-- Scanner for `re.split(r'(?<=[.!?])\s+', ·)`.  `cur` is the current
piece (reversed); `skipping` is true while consuming the matched
whitespace run. -/
def splitGo : List Char → List Char → Bool → List (List Char)
  | [], cur, _ => [cur.reverse]
  | c :: rest, cur, true =>
      if isPySpace c then splitGo rest cur true
      else splitGo rest [c] false
  | c :: rest, cur, false =>
      if isPySpace c && headIsTerm cur then
        cur.reverse :: splitGo rest [] true
      else splitGo rest (c :: cur) false

/-- `simple_sentence_split` of `lab/rag/chunk.py`: split the stripped text
at whitespace runs preceded by `[.!?]` and keep the non-empty pieces. -/
def simple_sentence_split (text : String) : List String :=
  (((splitGo (pyStrip text.data) [] false).map
      (fun cs => String.mk cs)).filter (fun s => !(s == "")))

/-! ### Decimal rendering of the chunk sequence number

Python renders the non-negative `sent_id` in `f"{rec['id']}-{sent_id}"`
as plain decimal digits.  The fuel-indexed recursion mirrors that and
keeps the definition kernel-reducible. -/

/-- Decimal digits (most significant first) of `n`, with explicit fuel;
any fuel above `n` gives the true digit string. -/
def natDigitsAux : Nat → Nat → List Char
  | 0, _ => []
  | fuel + 1, n =>
      if n < 10 then [Nat.digitChar n]
      else natDigitsAux fuel (n / 10) ++ [Nat.digitChar (n % 10)]

/-- Decimal rendering of a natural number (the Python `f"{n}"` for a
non-negative int). -/
def natStr (n : Nat) : String :=
  String.mk (natDigitsAux (n + 1) n)

/-- Chunk identifier `f"{rec['id']}-{sent_id}"`. -/
def mkChunkId (docId : String) (n : Nat) : String :=
  docId ++ "-" ++ natStr n

/-! ### Chunking (`lab/rag/chunk.py`, `chunk_records`) -/

/-- The per-document loop body of `chunk_records`: greedily pack
sentences into `buf` while `len(buf) + 1 + len(sent) <= max_chars`,
emitting a chunk (and bumping `sent_id`) on overflow, and flushing the
final non-empty buffer. -/
def chunkLoop (rec : Doc) (maxChars : Int) :
    List String → String → Nat → List Chunk
  | [], buf, n =>
      if buf = "" then [] else [⟨mkChunkId rec.id n, buf, rec⟩]
  | sent :: rest, buf, n =>
      if buf = "" then chunkLoop rec maxChars rest sent n
      else if (buf.length : Int) + 1 + (sent.length : Int) ≤ maxChars then
        chunkLoop rec maxChars rest (buf ++ " " ++ sent) n
      else
        ⟨mkChunkId rec.id n, buf, rec⟩ ::
          chunkLoop rec maxChars rest sent (n + 1)

/-- Chunks emitted for one record by `chunk_records`. -/
def docChunks (maxChars : Int) (rec : Doc) : List Chunk :=
  chunkLoop rec maxChars (simple_sentence_split rec.text) "" 0

/-- `chunk_records(records, max_chars=400)`: concatenation of the
per-record chunk lists, in record order.  Note the source performs no
validation of `max_chars` and raises nothing. -/
def chunk_records (records : List Doc) (maxChars : Int := 400) :
    List Chunk :=
  records.flatMap (docChunks maxChars)

/-- Join a group of sentences with the single-space separator the packer
inserts (`buf + " " + sent`): the text of the chunk emitted for that
group. -/
def joinSp : List String → String
  | [] => ""
  | [s] => s
  | s :: rest => s ++ " " ++ joinSp rest

/-! ### Python helpers shared by the retrieval code -/

/-- Python list slicing `l[:k]` for an `int` bound: a non-negative `k`
takes the first `k` elements, a negative `k` drops the last `|k|`. -/
def pySlice {α : Type} (l : List α) (k : Int) : List α :=
  if 0 ≤ k then l.take k.toNat else l.take (l.length - (-k).toNat)

/-- Insert `x` into a list already sorted by descending `key`, placing it
before the first element whose key is not larger.  Folding this over the
input from the right yields exactly Python's stable
`sorted(·, key=key, reverse=True)`. -/
def insertDesc {α : Type} (key : α → ℚ) (x : α) : List α → List α
  | [] => [x]
  | y :: ys =>
      if key x < key y then y :: insertDesc key x ys else x :: y :: ys

/-- Stable descending sort by `key`; extensionally equal to Python's
`sorted(·, key=key, reverse=True)` (both are stable and sorted). -/
def sortDesc {α : Type} (key : α → ℚ) (l : List α) : List α :=
  l.foldr (insertDesc key) []

/-! ### Lexical retrieval (`lab/rag/retrieve.py`) -/

/-- `_tokenize`: lowercase, then take maximal runs of ASCII alphanumeric
characters (`re.findall(r"[A-Za-z0-9]+", s.lower())`).  `cur` is the
current run, reversed. -/
def tokenizeGo : List Char → List Char → List (List Char)
  | [], cur => if cur.isEmpty then [] else [cur.reverse]
  | c :: rest, cur =>
      if c.isAlphanum && c.toNat < 128 then tokenizeGo rest (c :: cur)
      else if cur.isEmpty then tokenizeGo rest []
      else cur.reverse :: tokenizeGo rest []

/-- `_tokenize(s)` of `lab/rag/retrieve.py`. -/
def tokenize (s : String) : List String :=
  (tokenizeGo (s.toLower.data) []).map (fun cs => String.mk cs)

/-- A BM25 result row `{'chunk_id','text','source','score'}`. -/
structure BMHit where
  chunk_id : String
  text : String
  source : String
  score : ℚ
  deriving DecidableEq, Repr

/-- Build/query-time errors of the retrieval stack.  The only error the
source raises itself is the `RuntimeError` in `BM25Retriever.__init__`. -/
inductive BuildError where
  | runtimeError : String → BuildError
  deriving DecidableEq, Repr

/-- A built `BM25Retriever`: the chunk corpus plus the scoring function
of the external `rank_bm25.BM25Okapi` object (`get_scores`, mapping the
query's token list to one score per corpus chunk; the library contract
is that the returned list has exactly `chunks.length` entries). -/
structure BM25State where
  chunks : List Chunk
  scoreFn : List String → List ℚ

/-- `BM25Retriever.__init__`: raises
`RuntimeError("rank-bm25 not installed; install it or swap retriever.")`
when the `rank_bm25` backend is unavailable — there is no fallback. -/
def bm25Init (chunks : List Chunk) (bm25Available : Bool)
    (scoreFn : List String → List ℚ) : Except BuildError BM25State :=
  if bm25Available then .ok ⟨chunks, scoreFn⟩
  else .error (.runtimeError
    "rank-bm25 not installed; install it or swap retriever.")

/-- Fallback chunk for out-of-range corpus indexing (unreachable while
`scoreFn` honours the library's length contract). -/
def dummyChunk : Chunk := ⟨"", "", ⟨"", "", ""⟩⟩

/-- `BM25Retriever.query`: score every chunk, rank indices by descending
score (Python's `sorted(..., reverse=True)`, stable), slice to `[:k]`,
and materialize the rows. -/
def bm25Query (st : BM25State) (q : String) (k : Int) : List BMHit :=
  let qTokens := tokenize q
  let scores := st.scoreFn qTokens
  let topIdx := pySlice
    (sortDesc (fun i => scores.getD i 0) (List.range scores.length)) k
  topIdx.map (fun i =>
    let c := st.chunks.getD i dummyChunk
    ⟨c.id, c.text, c.meta.source, scores.getD i 0⟩)

/-! ### Embedding provider (`lab/rag/embed.py`) -/

/-- A built `Embeddings` object: the resolved backend name and its
encode function (one vector per text).  The two encoders — the external
sentence-transformers model and the sha256-based stub — are opaque pure
functions supplied as parameters. -/
structure EmbedState where
  backend : String
  enc : String → List ℚ

/-- `Embeddings.__init__`: resolve the backend from the argument or the
`EMBED_BACKEND` environment variable (default `"st"`); `stub`/`fake`
select the stub encoder; otherwise try to load the model and fall back
to the stub when the model backend is unavailable.  Construction never
fails. -/
def embedInit (backendArg envBackend : Option String)
    (stAvailable : Bool) (stEnc stubEnc : String → List ℚ) : EmbedState :=
  let b := (backendArg.getD (envBackend.getD "st")).toLower
  if b == "stub" || b == "fake" then ⟨b, stubEnc⟩
  else if stAvailable then ⟨b, stEnc⟩
  else ⟨"stub", stubEnc⟩

/-! ### Vector index (`lab/rag/vector.py`) -/

/-- A built `FaissIndex`.  `faissAvail` records which backend the
constructor selected; `ids` and `matrix` hold the stored id list and
vectors (inside the faiss index for the optimized backend, in
`self._matrix` for the numpy fallback). -/
structure FaissState where
  faissAvail : Bool
  dim : Int
  metric : String
  ids : List String
  matrix : List (List ℚ)

/-- `FaissIndex.__init__`: select faiss when importable, otherwise the
numpy brute-force fallback.  Construction never fails. -/
def faissInit (dim : Int) (metric : String) (faissAvailable : Bool) :
    FaissState :=
  ⟨faissAvailable, dim, metric, [], []⟩

/-- `FaissIndex.add`: append ids and vectors. -/
def faissAdd (st : FaissState) (ids : List String)
    (vectors : List (List ℚ)) : FaissState :=
  { st with ids := st.ids ++ ids, matrix := st.matrix ++ vectors }

/-! ### Hybrid retriever (`lab/rag/hybrid.py`) -/

/-- `build_vector_index`: encode every chunk text, infer the dimension
from the first vector (128 when there are no chunks), build an
inner-product index and add the vectors. -/
def build_vector_index (chunks : List Chunk) (emb : EmbedState)
    (faissAvailable : Bool) : FaissState :=
  let vecs := chunks.map (fun c => emb.enc c.text)
  let dim : Int := match vecs with
    | [] => 128
    | v :: _ => v.length
  faissAdd (faissInit dim "ip" faissAvailable) (chunks.map (·.id)) vecs

/-- A built `HybridRetriever`. -/
structure HybridState where
  chunks : List Chunk
  alpha : ℚ
  emb : EmbedState
  bm25 : BM25State
  index : FaissState

/-- `HybridRetriever.__init__`: `alpha` is the argument when supplied,
else `float(os.getenv("HYBRID_ALPHA", "0.5"))` (modelled as the parsed
environment value with default `1/2`); no validation of `alpha` is
performed.  The constructor then builds the embedding provider, the BM25
retriever (which is the only step that can raise) and the vector
index. -/
def hybridInit (chunks : List Chunk) (alpha : Option ℚ)
    (envAlpha : Option ℚ) (backendArg envBackend : Option String)
    (stAvailable : Bool) (stEnc stubEnc : String → List ℚ)
    (bm25Available : Bool) (scoreFn : List String → List ℚ)
    (faissAvailable : Bool) : Except BuildError HybridState :=
  let a := alpha.getD (envAlpha.getD (1/2))
  let emb := embedInit backendArg envBackend stAvailable stEnc stubEnc
  match bm25Init chunks bm25Available scoreFn with
  | .error e => .error e
  | .ok bm =>
      .ok ⟨chunks, a, emb, bm, build_vector_index chunks emb faissAvailable⟩

/-! #### Score-map plumbing of `HybridRetriever.query`

Python dicts built by `{cid: score for cid, score in hits}` keep keys in
first-insertion order and let a later pair overwrite the value. -/

/-- One `d[k] = v` step on an insertion-ordered association list. -/
def dinsert (l : List (String × ℚ)) (kv : String × ℚ) :
    List (String × ℚ) :=
  if l.any (fun p => p.1 == kv.1) then
    l.map (fun p => if p.1 == kv.1 then (p.1, kv.2) else p)
  else l ++ [kv]

/-- The dict comprehension `{cid: score for cid, score in hits}`. -/
def pyDict (hits : List (String × ℚ)) : List (String × ℚ) :=
  hits.foldl dinsert []

/-- Dict key list, in insertion order. -/
def dkeys (d : List (String × ℚ)) : List String := d.map (·.1)

/-- `d.get(k, v₀)`. -/
def lookupD (d : List (String × ℚ)) (k : String) (v₀ : ℚ) : ℚ :=
  match d.find? (fun p => p.1 == k) with
  | some p => p.2
  | none => v₀

/-- The float literal `1e-9` of the degenerate-spread test. -/
def normEps : ℚ := 1 / 1000000000

/-- Smallest element of a value list (`min(vals)`; `0` for the empty
list, on which the source never calls it). -/
def listMin : List ℚ → ℚ
  | [] => 0
  | x :: xs => xs.foldl min x

/-- Largest element of a value list (`max(vals)`). -/
def listMax : List ℚ → ℚ
  | [] => 0
  | x :: xs => xs.foldl max x

/-- The inner `norm` of `HybridRetriever.query`: min-max normalize a
score mapping to `[0,1]`, sending every entry to `1.0` when the spread
`hi - lo` is at most `1e-9`, and the empty mapping to itself. -/
def normMap (d : List (String × ℚ)) : List (String × ℚ) :=
  match d with
  | [] => []
  | _ =>
      let vals := d.map (·.2)
      let lo := listMin vals
      let hi := listMax vals
      if hi - lo ≤ normEps then d.map (fun p => (p.1, 1))
      else d.map (fun p => (p.1, (p.2 - lo) / (hi - lo)))

/-- A fused result row
`{'chunk_id','text','source','score','vector','bm25'}`. -/
structure Hit where
  chunk_id : String
  text : String
  source : String
  score : ℚ
  vector : ℚ
  bm25 : ℚ
  deriving DecidableEq, Repr

/-- `chunk_by_id[cid]`: the dict comprehension keeps the last chunk with
a given id, and indexing a missing id raises `KeyError` (modelled as
`none`). -/
def chunkById (chunks : List Chunk) (cid : String) : Option Chunk :=
  chunks.reverse.find? (fun c => c.id == cid)

/-- The materialization loop of `HybridRetriever.query`: build one `Hit`
per ranked `(cid, score)` pair, propagating the `KeyError` of a missing
chunk id. -/
def materialize (chunks : List Chunk) (vMap bmMap : List (String × ℚ)) :
    List (String × ℚ) → Option (List Hit)
  | [] => some []
  | (cid, score) :: rest =>
      match chunkById chunks cid, materialize chunks vMap bmMap rest with
      | some c, some hits =>
          some (⟨cid, c.text, c.meta.source, score,
                 lookupD vMap cid 0, lookupD bmMap cid 0⟩ :: hits)
      | _, _ => none

/-- The union `set(v_map) | set(bm_map)` of candidate ids, enumerated as
the `v_map` keys followed by the new `bm_map` keys.  (CPython's set
iteration order is an implementation detail; every property proved below
is insensitive to this enumeration order.) -/
def idUnion (vMap bmMap : List (String × ℚ)) : List String :=
  dkeys vMap ++ (dkeys bmMap).filter (fun i => !(dkeys vMap).contains i)

/-- The fused `(cid, score)` list over the id union:
`score = alpha * v_n.get(cid, 0.0) + (1.0 - alpha) * bm_n.get(cid, 0.0)`
with `v_n`/`bm_n` the min-max-normalized score dicts. -/
def fuseScores (alpha : ℚ) (vMap bmMap : List (String × ℚ)) :
    List (String × ℚ) :=
  (idUnion vMap bmMap).map (fun cid =>
    (cid, alpha * lookupD (normMap vMap) cid 0 +
          (1 - alpha) * lookupD (normMap bmMap) cid 0))

/-- The fusion stage of `HybridRetriever.query` (everything after the
two sub-searches): given the raw candidate lists `vHits` (from
`FaissIndex.search`) and `bmHits` (chunk id and score of each
`BM25Retriever` row), build the two score dicts, min-max normalize each,
fuse over the id union with weight `alpha`, sort descending by fused
score (Python's stable `list.sort(key=..., reverse=True)`), slice to
`[:k]` and materialize. -/
def hybridFuse (alpha : ℚ) (chunks : List Chunk)
    (vHits bmHits : List (String × ℚ)) (k : Int) : Option (List Hit) :=
  materialize chunks (pyDict vHits) (pyDict bmHits)
    (pySlice (sortDesc (·.2) (fuseScores alpha (pyDict vHits) (pyDict bmHits))) k)

/-! ### Sample inputs used for concrete evaluations -/

/-- The end-to-end example document of the spec (§8). -/
def sampleDoc : Doc :=
  ⟨"d1", "RAG combines retrieval with generation. It improves grounding.",
   "s"⟩

/-- A two-sentence document. -/
def twoSentDoc : Doc := ⟨"d", "A. B.", "s"⟩

/-- A small two-chunk corpus. -/
def chunkA : Chunk := ⟨"d-0", "alpha text", twoSentDoc⟩

def chunkB : Chunk := ⟨"d-1", "beta text", twoSentDoc⟩

/-- A built BM25 retriever over the two-chunk corpus whose (external)
scoring function scores every chunk 0. -/
def sampleBM : BM25State := ⟨[chunkA, chunkB], fun _ => [0, 0]⟩

/-- A trivial encoder standing in for either embedding backend. -/
def zeroEnc : String → List ℚ := fun _ => []

/-- A trivial `get_scores` for an empty corpus. -/
def zeroScores : List String → List ℚ := fun _ => []

/-- The fused hit produced for `chunkA` in the concrete two-chunk fusion
run evaluated below. -/
def sampleHit : Hit := ⟨"d-0", "alpha text", "s", 3/4, 2, 0⟩

/-! ## Helper lemmas -/

theorem mem_split_ne_empty {t s : String}
    (hs : s ∈ simple_sentence_split t) : s ≠ "" := by
  have h := List.of_mem_filter hs
  simpa using h

theorem joinSp_append_single (g : List String) (s : String) (hg : g ≠ []) :
    joinSp (g ++ [s]) = joinSp g ++ " " ++ s := by
  induction g with
  | nil => exact absurd rfl hg
  | cons x t ih =>
    cases t with
    | nil => simp [joinSp]
    | cons y r =>
      have h1 : joinSp ((x :: y :: r) ++ [s])
          = x ++ " " ++ joinSp ((y :: r) ++ [s]) := rfl
      rw [h1, ih (by simp)]
      show _ = (x ++ " " ++ joinSp (y :: r)) ++ " " ++ s
      simp [String.append_assoc]

theorem joinSp_ne_empty (g : List String) (hg : g ≠ [])
    (h : ∀ s ∈ g, s ≠ "") : joinSp g ≠ "" := by
  cases g with
  | nil => exact absurd rfl hg
  | cons x t =>
    cases t with
    | nil => exact h x (by simp)
    | cons y r =>
      intro hcon
      have hdata : (joinSp (x :: y :: r)).data = [] := by rw [hcon]
      have hx : joinSp (x :: y :: r) = x ++ " " ++ joinSp (y :: r) := rfl
      rw [hx, String.data_append, String.data_append] at hdata
      rcases List.append_eq_nil.mp hdata with ⟨h1, -⟩
      rcases List.append_eq_nil.mp h1 with ⟨-, h2⟩
      exact absurd h2 (by simp [String.data])

/-- Main packing invariant of `chunkLoop`: starting from a non-empty
buffer holding the space-joined group `g`, the emitted chunk texts are
the space-joins of a partition of `g ++ sents` into non-empty
consecutive groups, the first of which extends `g`. -/
theorem chunkLoop_cov (rec : Doc) (mc : Int) :
    ∀ (sents : List String) (g : List String) (n : Nat),
      (∀ s ∈ sents, s ≠ "") → (∀ s ∈ g, s ≠ "") → g ≠ [] →
      ∃ (ext : List String) (groups : List (List String)),
        ext ++ groups.flatten = sents ∧
        (∀ gr ∈ groups, gr ≠ [] ∧ ∀ s ∈ gr, s ≠ "") ∧
        (chunkLoop rec mc sents (joinSp g) n).map (·.text)
          = joinSp (g ++ ext) :: groups.map joinSp := by
  intro sents
  induction sents with
  | nil =>
    intro g n _ hgne hg
    refine ⟨[], [], by simp, by simp, ?_⟩
    have hbuf : joinSp g ≠ "" := joinSp_ne_empty g hg hgne
    simp [chunkLoop, hbuf]
  | cons s rest ih =>
    intro g n hs hgne hg
    have hbuf : joinSp g ≠ "" := joinSp_ne_empty g hg hgne
    have hsne : s ≠ "" := hs s (by simp)
    have hrest : ∀ x ∈ rest, x ≠ "" := fun x hx => hs x (by simp [hx])
    by_cases hfit :
        ((joinSp g).length : Int) + 1 + (s.length : Int) ≤ mc
    · -- sentence packed into the buffer
      have hg' : ∀ x ∈ g ++ [s], x ≠ "" := by
        intro x hx
        rcases List.mem_append.mp hx with h | h
        · exact hgne x h
        · simp at h; subst h; exact hsne
      obtain ⟨ext, groups, hcover, hne, htexts⟩ :=
        ih (g ++ [s]) n hrest hg' (by simp)
      refine ⟨s :: ext, groups, by simpa using hcover, hne, ?_⟩
      have hjoin : joinSp (g ++ [s]) = joinSp g ++ " " ++ s :=
        joinSp_append_single g s hg
      have hstep : chunkLoop rec mc (s :: rest) (joinSp g) n
          = chunkLoop rec mc rest (joinSp g ++ " " ++ s) n := by
        simp [chunkLoop, hbuf, hfit]
      rw [hstep, ← hjoin, htexts]
      have : g ++ s :: ext = (g ++ [s]) ++ ext := by simp
      rw [this]
    · -- buffer emitted, new buffer starts with s
      obtain ⟨ext, groups, hcover, hne, htexts⟩ :=
        ih [s] (n + 1) hrest (by simpa using hsne) (by simp)
      refine ⟨[], (s :: ext) :: groups, ?_, ?_, ?_⟩
      · simp [← hcover]
      · intro gr hgr
        rcases List.mem_cons.mp hgr with h | h
        · subst h
          refine ⟨by simp, ?_⟩
          intro x hx
          rcases List.mem_cons.mp hx with h | h
          · subst h; exact hsne
          · refine hrest x ?_
            rw [← hcover]
            exact List.mem_append.mpr (Or.inl h)
        · exact hne gr h
      · have hstep : chunkLoop rec mc (s :: rest) (joinSp g) n
            = ⟨mkChunkId rec.id n, joinSp g, rec⟩ ::
                chunkLoop rec mc rest s (n + 1) := by
          simp [chunkLoop, hbuf, hfit]
        have hs1 : s = joinSp [s] := rfl
        rw [hstep]
        simp only [List.map_cons]
        rw [show chunkLoop rec mc rest s (n + 1)
              = chunkLoop rec mc rest (joinSp [s]) (n + 1) from rfl, htexts]
        simp

/-! ## C5 — chunk coverage -/

/-- C5: for every document sequence and every `max_chars > 0`, the chunk
texts emitted for a document are the single-space joins of a partition
of that document's sentence list into non-empty consecutive groups — so
concatenating the chunk texts (ignoring the inserted separators)
reproduces exactly the document's sentences, in order, with none
dropped, duplicated or truncated; in particular a sentence longer than
`max_chars` is still emitted whole inside its group. -/
theorem chunk_records_coverage (records : List Doc) (maxChars : Int)
    (hpos : 0 < maxChars) :
    chunk_records records maxChars = records.flatMap (docChunks maxChars) ∧
    ∀ rec ∈ records, ∃ groups : List (List String),
      groups.flatten = simple_sentence_split rec.text ∧
      (∀ gr ∈ groups, gr ≠ []) ∧
      (docChunks maxChars rec).map (·.text) = groups.map joinSp := by
  refine ⟨rfl, ?_⟩
  intro rec _
  unfold docChunks
  cases hsplit : simple_sentence_split rec.text with
  | nil => exact ⟨[], by simp, by simp, by simp [chunkLoop]⟩
  | cons s rest =>
    have hs : ∀ x ∈ s :: rest, x ≠ "" := by
      intro x hx
      exact mem_split_ne_empty (t := rec.text) (by rw [hsplit]; exact hx)
    obtain ⟨ext, groups, hcover, hne, htexts⟩ :=
      chunkLoop_cov rec maxChars rest [s] 0
        (fun x hx => hs x (by simp [hx]))
        (by simpa using hs s (by simp)) (by simp)
    refine ⟨(s :: ext) :: groups, ?_, ?_, ?_⟩
    · simp only [List.flatten_cons, List.cons_append]
      rw [hcover]
    · intro gr hgr
      rcases List.mem_cons.mp hgr with h | h
      · subst h; simp
      · exact (hne gr h).1
    · have hstep : chunkLoop rec maxChars (s :: rest) "" 0
          = chunkLoop rec maxChars rest (joinSp [s]) 0 := by
        simp [chunkLoop, joinSp]
      rw [hstep, htexts]
      simp

/-- Witness for C5 at the spec's end-to-end example: a single chunk
containing both sentences. -/
theorem chunk_records_coverage_witness :
    (0 : Int) < 400 ∧ ∃ groups : List (List String),
      groups.flatten = simple_sentence_split sampleDoc.text ∧
      (∀ gr ∈ groups, gr ≠ []) ∧
      (docChunks 400 sampleDoc).map (·.text) = groups.map joinSp :=
  ⟨by norm_num,
   (chunk_records_coverage [sampleDoc] 400 (by norm_num)).2 sampleDoc
     (by simp)⟩

/-! ## C9 — chunk id format and uniqueness -/

theorem digitChar_ne_dash : ∀ n : Nat, n < 10 → Nat.digitChar n ≠ '-' := by
  decide

theorem digitChar_inj_lt :
    ∀ m < 10, ∀ n < 10, Nat.digitChar m = Nat.digitChar n → m = n := by
  decide

theorem natDigitsAux_ne_nil (fuel n : Nat) (h : n < fuel) :
    natDigitsAux fuel n ≠ [] := by
  cases fuel with
  | zero => omega
  | succ f =>
    by_cases h10 : n < 10 <;> simp [natDigitsAux, h10]

theorem natDigitsAux_not_dash (fuel : Nat) :
    ∀ n, n < fuel → ∀ c ∈ natDigitsAux fuel n, c ≠ '-' := by
  induction fuel with
  | zero => intro n h; omega
  | succ f ih =>
    intro n h c hc
    by_cases h10 : n < 10
    · simp [natDigitsAux, h10] at hc
      subst hc
      exact digitChar_ne_dash n h10
    · simp only [natDigitsAux, h10, if_false] at hc
      rcases List.mem_append.mp hc with h1 | h1
      · have hlt : n / 10 < f := by omega
        exact ih (n / 10) hlt c h1
      · simp at h1
        subst h1
        exact digitChar_ne_dash (n % 10) (Nat.mod_lt n (by norm_num))

theorem append_singleton_inj {α : Type} {l₁ l₂ : List α} {a b : α}
    (h : l₁ ++ [a] = l₂ ++ [b]) : l₁ = l₂ ∧ a = b := by
  have hr := congrArg List.reverse h
  simp only [List.reverse_append, List.reverse_cons, List.reverse_nil,
    List.nil_append, List.singleton_append] at hr
  obtain ⟨hab, hl⟩ := List.cons.inj hr
  exact ⟨List.reverse_injective hl, hab⟩

theorem natDigitsAux_fuel_irrel :
    ∀ n f₁ f₂, n < f₁ → n < f₂ →
      natDigitsAux f₁ n = natDigitsAux f₂ n := by
  intro n
  induction n using Nat.strong_induction_on with
  | _ n ih =>
    intro f₁ f₂ h₁ h₂
    cases f₁ with
    | zero => omega
    | succ a =>
      cases f₂ with
      | zero => omega
      | succ b =>
        by_cases h10 : n < 10
        · simp [natDigitsAux, h10]
        · simp only [natDigitsAux, h10, if_false]
          have hdiv : n / 10 < n := Nat.div_lt_self (by omega) (by norm_num)
          rw [ih (n / 10) hdiv a b (by omega) (by omega)]

theorem natDigitsAux_inj (fuel : Nat) :
    ∀ m n, m < fuel → n < fuel →
      natDigitsAux fuel m = natDigitsAux fuel n → m = n := by
  induction fuel with
  | zero => intro m n h; omega
  | succ f ih =>
    intro m n hm hn h
    by_cases hm10 : m < 10 <;> by_cases hn10 : n < 10
    · simp [natDigitsAux, hm10, hn10] at h
      exact digitChar_inj_lt m hm10 n hn10 h
    · simp only [natDigitsAux, hm10, hn10, if_true, if_false] at h
      have hne := natDigitsAux_ne_nil f (n / 10) (by omega)
      have hlen := congrArg List.length h
      simp only [List.length_append, List.length_singleton] at hlen
      exact absurd (List.length_eq_zero.mp (by omega)) hne
    · simp only [natDigitsAux, hm10, hn10, if_true, if_false] at h
      have hne := natDigitsAux_ne_nil f (m / 10) (by omega)
      have hlen := congrArg List.length h
      simp only [List.length_append, List.length_singleton] at hlen
      exact absurd (List.length_eq_zero.mp (by omega)) hne
    · simp only [natDigitsAux, hm10, hn10, if_false] at h
      obtain ⟨hq, hr⟩ := append_singleton_inj h
      have hdiv : m / 10 = n / 10 :=
        ih (m / 10) (n / 10) (by omega) (by omega) hq
      have hmod : m % 10 = n % 10 :=
        digitChar_inj_lt (m % 10) (Nat.mod_lt m (by norm_num))
          (n % 10) (Nat.mod_lt n (by norm_num)) hr
      omega

theorem natStr_inj {m n : Nat} (h : natStr m = natStr n) : m = n := by
  have hd : natDigitsAux (m + 1) m = natDigitsAux (n + 1) n :=
    congrArg String.data h
  have hm := natDigitsAux_fuel_irrel m (m + 1) (max m n + 1)
    (by omega) (by omega)
  have hn := natDigitsAux_fuel_irrel n (n + 1) (max m n + 1)
    (by omega) (by omega)
  rw [hm, hn] at hd
  exact natDigitsAux_inj (max m n + 1) m n (by omega) (by omega) hd

theorem natStr_not_dash {n : Nat} : ∀ c ∈ (natStr n).data, c ≠ '-' :=
  natDigitsAux_not_dash (n + 1) n (by omega)

/-- Splitting at the dash separator is unambiguous when the suffixes are
dash-free. -/
theorem dash_sep_inj :
    ∀ (a b x y : List Char), (∀ c ∈ x, c ≠ '-') → (∀ c ∈ y, c ≠ '-') →
      a ++ '-' :: x = b ++ '-' :: y → a = b ∧ x = y := by
  intro a
  induction a with
  | nil =>
    intro b x y hx hy h
    cases b with
    | nil =>
      simp only [List.nil_append] at h
      exact ⟨rfl, (List.cons.inj h).2⟩
    | cons c bs =>
      simp only [List.nil_append, List.cons_append] at h
      obtain ⟨hc, htail⟩ := List.cons.inj h
      exfalso
      refine hx '-' ?_ rfl
      rw [htail]
      exact List.mem_append.mpr (Or.inr (by simp))
  | cons c as ih =>
    intro b x y hx hy h
    cases b with
    | nil =>
      simp only [List.nil_append, List.cons_append] at h
      obtain ⟨hc, htail⟩ := List.cons.inj h
      exfalso
      refine hy '-' ?_ rfl
      rw [← htail]
      exact List.mem_append.mpr (Or.inr (by simp))
    | cons d bs =>
      simp only [List.cons_append] at h
      obtain ⟨hc, htail⟩ := List.cons.inj h
      obtain ⟨h1, h2⟩ := ih bs x y hx hy htail
      exact ⟨by rw [hc, h1], h2⟩

theorem mkChunkId_inj {d₁ d₂ : String} {n₁ n₂ : Nat}
    (h : mkChunkId d₁ n₁ = mkChunkId d₂ n₂) : d₁ = d₂ ∧ n₁ = n₂ := by
  have hd : d₁.data ++ '-' :: (natStr n₁).data
      = d₂.data ++ '-' :: (natStr n₂).data := by
    have := congrArg String.data h
    simpa [mkChunkId, String.data_append] using this
  obtain ⟨h1, h2⟩ := dash_sep_inj d₁.data d₂.data _ _
    natStr_not_dash natStr_not_dash hd
  exact ⟨String.ext h1, natStr_inj (String.ext h2)⟩

theorem chunkLoop_ids (rec : Doc) (mc : Int) :
    ∀ (sents : List String) (buf : String) (n : Nat),
      (chunkLoop rec mc sents buf n).map (·.id)
        = (List.range' n (chunkLoop rec mc sents buf n).length).map
            (mkChunkId rec.id) := by
  intro sents
  induction sents with
  | nil =>
    intro buf n
    by_cases hbuf : buf = "" <;> simp [chunkLoop, hbuf, List.range'_succ]
  | cons s rest ih =>
    intro buf n
    by_cases hbuf : buf = ""
    · simp only [chunkLoop, hbuf, if_true]
      exact ih s n
    · by_cases hfit : (buf.length : Int) + 1 + (s.length : Int) ≤ mc
      · simp only [chunkLoop, hbuf, hfit, if_false, if_true]
        exact ih (buf ++ " " ++ s) n
      · simp only [chunkLoop, hbuf, hfit, if_false, List.map_cons,
          List.length_cons, List.range'_succ]
        rw [ih s (n + 1)]

theorem chunkLoop_meta (rec : Doc) (mc : Int) :
    ∀ (sents : List String) (buf : String) (n : Nat),
      ∀ c ∈ chunkLoop rec mc sents buf n, c.meta = rec := by
  intro sents
  induction sents with
  | nil =>
    intro buf n c hc
    by_cases hbuf : buf = "" <;> simp [chunkLoop, hbuf] at hc
    subst hc; rfl
  | cons s rest ih =>
    intro buf n c hc
    by_cases hbuf : buf = ""
    · simp only [chunkLoop, hbuf, if_true] at hc
      exact ih s n c hc
    · by_cases hfit : (buf.length : Int) + 1 + (s.length : Int) ≤ mc
      · simp only [chunkLoop, hbuf, hfit, if_false, if_true] at hc
        exact ih (buf ++ " " ++ s) n c hc
      · simp only [chunkLoop, hbuf, hfit, if_false, List.mem_cons] at hc
        rcases hc with hc | hc
        · subst hc; rfl
        · exact ih s (n + 1) c hc

/-- C9: every chunk id is the owning document's id, a dash, and a
zero-based per-document counter that increments once per emitted chunk;
with pairwise-distinct document ids all chunk ids of a run are pairwise
distinct. -/
theorem chunk_records_ids (records : List Doc) (maxChars : Int)
    (hids : (records.map (·.id)).Nodup) :
    (∀ rec ∈ records,
      (docChunks maxChars rec).map (·.id)
        = (List.range (docChunks maxChars rec).length).map
            (mkChunkId rec.id) ∧
      ∀ c ∈ docChunks maxChars rec, c.meta = rec) ∧
    ((chunk_records records maxChars).map (·.id)).Nodup := by
  constructor
  · intro rec _
    refine ⟨?_, chunkLoop_meta rec maxChars _ "" 0⟩
    rw [List.range_eq_range']
    exact chunkLoop_ids rec maxChars _ "" 0
  · rw [show chunk_records records maxChars
        = records.flatMap (docChunks maxChars) from rfl,
      List.map_flatMap]
    rw [List.nodup_flatMap]
    constructor
    · intro rec _
      show ((chunkLoop rec maxChars
        (simple_sentence_split rec.text) "" 0).map (·.id)).Nodup
      rw [chunkLoop_ids rec maxChars _ "" 0]
      refine List.Nodup.map ?_ (List.nodup_range' _ _)
      intro a b hab
      exact (mkChunkId_inj hab).2
    · have hpw : records.Pairwise (fun r₁ r₂ => r₁.id ≠ r₂.id) :=
        List.pairwise_map.mp hids
      refine hpw.imp ?_
      intro r₁ r₂ hne x hx₁ hx₂
      have e₁ : (docChunks maxChars r₁).map (·.id)
          = (List.range' 0 (docChunks maxChars r₁).length).map
              (mkChunkId r₁.id) := chunkLoop_ids r₁ maxChars _ "" 0
      have e₂ : (docChunks maxChars r₂).map (·.id)
          = (List.range' 0 (docChunks maxChars r₂).length).map
              (mkChunkId r₂.id) := chunkLoop_ids r₂ maxChars _ "" 0
      rw [show (fun a => List.map (fun c => c.id) (docChunks maxChars a))
            r₁ = (docChunks maxChars r₁).map (·.id) from rfl, e₁] at hx₁
      rw [show (fun a => List.map (fun c => c.id) (docChunks maxChars a))
            r₂ = (docChunks maxChars r₂).map (·.id) from rfl, e₂] at hx₂
      obtain ⟨a, -, ha⟩ := List.mem_map.mp hx₁
      obtain ⟨b, -, hb⟩ := List.mem_map.mp hx₂
      exact hne (mkChunkId_inj (ha.trans hb.symm)).1

/-- Witness for C9 on two concrete documents. -/
theorem chunk_records_ids_witness :
    ([sampleDoc, twoSentDoc].map (·.id)).Nodup ∧
    ((chunk_records [sampleDoc, twoSentDoc] 5).map (·.id)).Nodup :=
  ⟨by decide,
   (chunk_records_ids [sampleDoc, twoSentDoc] 5 (by decide)).2⟩

/-! ## C1 — alpha handling of the hybrid constructor -/

/-- Counterexample for C1 as stated: the fusion weight `alpha = 2` lies
outside `[0,1]`, yet construction succeeds (no `InvalidParameterError`
exists in the code) and stores `alpha` unchanged. -/
theorem hybridInit_no_alpha_validation_cex :
    (hybridInit [] (some 2) none none none true zeroEnc zeroEnc true
      zeroScores true).map (·.alpha) = .ok 2 := rfl

/-- C1 amended: `HybridRetriever.__init__` performs no validation of
`alpha`; whenever the BM25 backend is available construction succeeds
for every `alpha`, storing the supplied value unchanged, and when
`alpha` is not supplied the value of `HYBRID_ALPHA` (default `0.5`) is
used. -/
theorem hybridInit_alpha (chunks : List Chunk) (alpha envAlpha : Option ℚ)
    (backendArg envBackend : Option String) (stAvail : Bool)
    (stEnc stubEnc : String → List ℚ) (scoreFn : List String → List ℚ)
    (faissAvail : Bool) :
    ∃ st, hybridInit chunks alpha envAlpha backendArg envBackend stAvail
        stEnc stubEnc true scoreFn faissAvail = .ok st ∧
      st.alpha = alpha.getD (envAlpha.getD (1/2)) :=
  ⟨_, rfl, rfl⟩

/-! ## C2 — chunking with a non-positive character budget -/

/-- Counterexample for C2 as stated: `chunk_records` raises nothing for
`max_chars = 0` (the source has no validation and no
`ConfigurationError`); it returns one chunk per sentence. -/
theorem chunk_records_no_validation_cex :
    chunk_records [twoSentDoc] 0
      = [⟨"d-0", "A.", twoSentDoc⟩, ⟨"d-1", "B.", twoSentDoc⟩] := by
  decide

theorem chunkLoop_nonpos (rec : Doc) (mc : Int) (hmc : mc ≤ 0) :
    ∀ (sents : List String) (buf : String) (n : Nat),
      (∀ s ∈ sents, s ≠ "") → buf ≠ "" →
      (chunkLoop rec mc sents buf n).map (·.text) = buf :: sents := by
  intro sents
  induction sents with
  | nil =>
    intro buf n _ hbuf
    simp [chunkLoop, hbuf]
  | cons s rest ih =>
    intro buf n hs hbuf
    have hlen : 0 < buf.length := by
      rcases buf with ⟨⟨⟩ | ⟨c, cs⟩⟩
      · exact absurd rfl hbuf
      · simp [String.length]
    have hfit : ¬ ((buf.length : Int) + 1 + (s.length : Int) ≤ mc) := by
      omega
    simp only [chunkLoop, hbuf, hfit, if_false, List.map_cons]
    rw [ih s (n + 1) (fun x hx => hs x (by simp [hx])) (hs s (by simp))]

/-- C2 amended: `chunk_records` performs no validation of `max_chars`
and never raises; for every `max_chars ≤ 0` it still returns chunks —
one chunk per sentence, the chunk texts being exactly the documents'
sentences in order. -/
theorem chunk_records_nonpositive (records : List Doc) (mc : Int)
    (hmc : mc ≤ 0) :
    (chunk_records records mc).map (·.text)
      = records.flatMap (fun r => simple_sentence_split r.text) := by
  unfold chunk_records
  rw [List.map_flatMap]
  refine List.flatMap_congr ?_
  intro r _
  show (chunkLoop r mc (simple_sentence_split r.text) "" 0).map (·.text)
    = simple_sentence_split r.text
  cases hsplit : simple_sentence_split r.text with
  | nil => simp [chunkLoop]
  | cons s rest =>
    have hs : ∀ x ∈ s :: rest, x ≠ "" := by
      intro x hx
      exact mem_split_ne_empty (t := r.text) (by rw [hsplit]; exact hx)
    have hstep : chunkLoop r mc (s :: rest) "" 0
        = chunkLoop r mc rest s 0 := by
      simp [chunkLoop]
    rw [hstep,
      chunkLoop_nonpos r mc hmc rest s 0
        (fun x hx => hs x (by simp [hx])) (hs s (by simp))]

/-- Witness for C2 (amended) at `max_chars = 0`. -/
theorem chunk_records_nonpositive_witness :
    (0 : Int) ≤ 0 ∧
    (chunk_records [twoSentDoc] 0).map (·.text)
      = [twoSentDoc].flatMap (fun r => simple_sentence_split r.text) :=
  ⟨le_refl 0, chunk_records_nonpositive [twoSentDoc] 0 (le_refl 0)⟩

/-! ## C4 — backend-unavailability fallback -/

/-- Counterexample for C4 as stated: when the `rank_bm25` backend is
unavailable, building the hybrid retriever does not fall back — the
`RuntimeError` of `BM25Retriever.__init__` propagates to the caller of
the build. -/
theorem hybridInit_bm25_propagates_cex :
    hybridInit [] none none none none true zeroEnc zeroEnc false
      zeroScores true
      = .error (.runtimeError
          "rank-bm25 not installed; install it or swap retriever.") := rfl

/-- C4 amended: the embedding provider and the vector index absorb
backend unavailability locally (stub / brute-force fallback, never an
error), but the BM25 retriever does not: with `rank_bm25` missing its
constructor fails with a `RuntimeError`, and that error propagates out
of the hybrid build. -/
theorem backend_fallback :
    (∀ (a e : Option String) (s₁ s₂ : String → List ℚ),
      (embedInit a e false s₁ s₂).enc = s₂ ∧
      ((embedInit a e false s₁ s₂).backend = "stub" ∨
       (embedInit a e false s₁ s₂).backend = "fake")) ∧
    (∀ (d : Int) (m : String),
      faissInit d m false = ⟨false, d, m, [], []⟩) ∧
    (∀ (chunks : List Chunk) (f : List String → List ℚ),
      bm25Init chunks false f = .error (.runtimeError
        "rank-bm25 not installed; install it or swap retriever.")) ∧
    (∀ (chunks : List Chunk) (alpha envAlpha : Option ℚ)
       (a e : Option String) (sAv : Bool) (s₁ s₂ : String → List ℚ)
       (f : List String → List ℚ) (fAv : Bool),
      hybridInit chunks alpha envAlpha a e sAv s₁ s₂ false f fAv
        = .error (.runtimeError
            "rank-bm25 not installed; install it or swap retriever.")) := by
  refine ⟨?_, fun _ _ => rfl, fun _ _ => rfl, fun _ _ _ _ _ _ _ _ _ _ => rfl⟩
  intro a e s₁ s₂
  unfold embedInit
  by_cases hb : ((a.getD (e.getD "st")).toLower == "stub"
      || (a.getD (e.getD "st")).toLower == "fake") = true
  · rw [if_pos hb]
    refine ⟨rfl, ?_⟩
    rcases Bool.or_eq_true_iff.mp hb with h | h
    · exact Or.inl (by simpa using h)
    · exact Or.inr (by simpa using h)
  · rw [if_neg hb]
    exact ⟨rfl, Or.inl rfl⟩

/-! ## C3 — BM25 query result counts -/

theorem insertDesc_perm {α : Type} (key : α → ℚ) (x : α) (l : List α) :
    (insertDesc key x l).Perm (x :: l) := by
  induction l with
  | nil => exact List.Perm.refl _
  | cons y ys ih =>
    unfold insertDesc
    by_cases h : key x < key y
    · rw [if_pos h]
      exact (ih.cons y).trans (List.Perm.swap x y ys)
    · rw [if_neg h]

theorem sortDesc_perm {α : Type} (key : α → ℚ) (l : List α) :
    (sortDesc key l).Perm l := by
  induction l with
  | nil => exact List.Perm.refl _
  | cons x xs ih =>
    exact (insertDesc_perm key x (sortDesc key xs)).trans (ih.cons x)

theorem sortDesc_length {α : Type} (key : α → ℚ) (l : List α) :
    (sortDesc key l).length = l.length :=
  (sortDesc_perm key l).length_eq

theorem pySlice_subset {α : Type} (l : List α) (k : Int) :
    pySlice l k ⊆ l := by
  unfold pySlice
  split <;> exact List.take_subset _ _

/-- Counterexample for C3 as stated: on a two-chunk corpus a query with
`k = -1 ≤ 0` returns one hit, not the empty sequence (Python's `[:k]`
slice with negative `k` keeps all but the last `|k|` entries). -/
theorem bm25Query_negative_k_cex :
    (bm25Query sampleBM "q" (-1)).length = 1 := by decide

/-- C3 amended: under the library contract that `get_scores` returns one
score per corpus chunk, `BM25Retriever.query` returns at most `k` hits
for every `k ≥ 0`, and returns the empty sequence — without raising —
whenever the corpus is empty or `k = 0`; for `k < 0`, however, the
Python slice `[:k]` returns all but the last `|k|` ranked hits instead
of the empty sequence. -/
theorem bm25Query_behavior (st : BM25State) (q : String) (k : Int)
    (hlen : ∀ t, (st.scoreFn t).length = st.chunks.length) :
    (0 ≤ k → (bm25Query st q k).length ≤ k.toNat) ∧
    (st.chunks = [] → bm25Query st q k = []) ∧
    (k = 0 → bm25Query st q k = []) ∧
    (k < 0 → (bm25Query st q k).length
        = st.chunks.length - (-k).toNat) := by
  have hsort : (sortDesc (fun i => (st.scoreFn (tokenize q)).getD i 0)
      (List.range (st.scoreFn (tokenize q)).length)).length
      = st.chunks.length := by
    rw [sortDesc_length, List.length_range, hlen]
  refine ⟨?_, ?_, ?_, ?_⟩
  · intro hk
    simp only [bm25Query, pySlice, hk, if_true, List.length_map]
    exact le_trans (List.length_take_le _ _) (le_refl _)
  · intro hempty
    have h0 : (st.scoreFn (tokenize q)).length = 0 := by
      rw [hlen, hempty]; rfl
    simp [bm25Query, h0, pySlice, sortDesc]
  · intro hk
    subst hk
    simp [bm25Query, pySlice]
  · intro hk
    have hnk : ¬ ((0:Int) ≤ k) := by omega
    simp only [bm25Query, pySlice, hnk, if_false, List.length_map,
      List.length_take, hsort]
    omega

/-- Witness for C3 (amended) on the two-chunk corpus. -/
theorem bm25Query_behavior_witness :
    bm25Query sampleBM "q" 0 = [] ∧
    (bm25Query sampleBM "q" 2).length ≤ (2 : Int).toNat :=
  ⟨(bm25Query_behavior sampleBM "q" 0 (fun _ => rfl)).2.2.1 rfl,
   (bm25Query_behavior sampleBM "q" 2 (fun _ => rfl)).1 (by norm_num)⟩

/-! ## C6, C7, C10 — score normalization and fusion -/

theorem foldl_min_le (xs : List ℚ) :
    ∀ a : ℚ, xs.foldl min a ≤ a ∧ ∀ v ∈ xs, xs.foldl min a ≤ v := by
  induction xs with
  | nil => intro a; exact ⟨le_refl a, by simp⟩
  | cons y ys ih =>
    intro a
    have h := ih (min a y)
    refine ⟨le_trans h.1 (min_le_left a y), ?_⟩
    intro v hv
    rcases List.mem_cons.mp hv with h1 | h1
    · rw [h1]
      exact le_trans h.1 (min_le_right a y)
    · exact h.2 v h1

theorem le_foldl_max (xs : List ℚ) :
    ∀ a : ℚ, a ≤ xs.foldl max a ∧ ∀ v ∈ xs, v ≤ xs.foldl max a := by
  induction xs with
  | nil => intro a; exact ⟨le_refl a, by simp⟩
  | cons y ys ih =>
    intro a
    have h := ih (max a y)
    refine ⟨le_trans (le_max_left a y) h.1, ?_⟩
    intro v hv
    rcases List.mem_cons.mp hv with h1 | h1
    · rw [h1]
      exact le_trans (le_max_right a y) h.1
    · exact h.2 v h1

theorem foldl_min_mem (xs : List ℚ) : ∀ a : ℚ, xs.foldl min a ∈ a :: xs := by
  induction xs with
  | nil => intro a; simp
  | cons y ys ih =>
    intro a
    have h : List.foldl min (min a y) ys ∈ (min a y) :: ys := ih (min a y)
    rcases List.mem_cons.mp h with h1 | h1
    · rcases min_choice a y with hc | hc
      · exact List.mem_cons.mpr (Or.inl (h1.trans hc))
      · refine List.mem_cons.mpr (Or.inr ?_)
        exact List.mem_cons.mpr (Or.inl (h1.trans hc))
    · refine List.mem_cons.mpr (Or.inr ?_)
      exact List.mem_cons.mpr (Or.inr h1)

theorem foldl_max_mem (xs : List ℚ) : ∀ a : ℚ, xs.foldl max a ∈ a :: xs := by
  induction xs with
  | nil => intro a; simp
  | cons y ys ih =>
    intro a
    have h : List.foldl max (max a y) ys ∈ (max a y) :: ys := ih (max a y)
    rcases List.mem_cons.mp h with h1 | h1
    · rcases max_choice a y with hc | hc
      · exact List.mem_cons.mpr (Or.inl (h1.trans hc))
      · refine List.mem_cons.mpr (Or.inr ?_)
        exact List.mem_cons.mpr (Or.inl (h1.trans hc))
    · refine List.mem_cons.mpr (Or.inr ?_)
      exact List.mem_cons.mpr (Or.inr h1)

theorem listMin_le {xs : List ℚ} {v : ℚ} (hv : v ∈ xs) : listMin xs ≤ v := by
  cases xs with
  | nil => simp at hv
  | cons x t =>
    rcases List.mem_cons.mp hv with h | h
    · subst h
      exact (foldl_min_le t v).1
    · exact (foldl_min_le t x).2 v h

theorem le_listMax {xs : List ℚ} {v : ℚ} (hv : v ∈ xs) : v ≤ listMax xs := by
  cases xs with
  | nil => simp at hv
  | cons x t =>
    rcases List.mem_cons.mp hv with h | h
    · subst h
      exact (le_foldl_max t v).1
    · exact (le_foldl_max t x).2 v h

theorem listMin_mem {xs : List ℚ} (h : xs ≠ []) : listMin xs ∈ xs := by
  cases xs with
  | nil => exact absurd rfl h
  | cons x t => exact foldl_min_mem t x

theorem listMax_mem {xs : List ℚ} (h : xs ≠ []) : listMax xs ∈ xs := by
  cases xs with
  | nil => exact absurd rfl h
  | cons x t => exact foldl_max_mem t x

theorem normMap_cons (q : String × ℚ) (rest : List (String × ℚ)) :
    normMap (q :: rest)
      = (if listMax ((q :: rest).map (·.2)) - listMin ((q :: rest).map (·.2))
            ≤ normEps
         then (q :: rest).map (fun p => (p.1, (1 : ℚ)))
         else (q :: rest).map (fun p =>
           (p.1, (p.2 - listMin ((q :: rest).map (·.2)))
             / (listMax ((q :: rest).map (·.2))
                - listMin ((q :: rest).map (·.2)))))) := rfl

theorem mem_normMap_bounds (d : List (String × ℚ)) :
    ∀ p ∈ normMap d, 0 ≤ p.2 ∧ p.2 ≤ 1 := by
  cases d with
  | nil => intro p hp; simp [normMap] at hp
  | cons q rest =>
    intro p hp
    rw [normMap_cons] at hp
    split_ifs at hp with hdeg
    · obtain ⟨orig, -, horig⟩ := List.mem_map.mp hp
      rw [← horig]
      norm_num
    · obtain ⟨orig, hmem, horig⟩ := List.mem_map.mp hp
      rw [← horig]
      have hval : orig.2 ∈ (q :: rest).map (·.2) :=
        List.mem_map.mpr ⟨orig, hmem, rfl⟩
      have hlo : listMin ((q :: rest).map (·.2)) ≤ orig.2 := listMin_le hval
      have hhi : orig.2 ≤ listMax ((q :: rest).map (·.2)) := le_listMax hval
      have hpos : 0 < listMax ((q :: rest).map (·.2))
          - listMin ((q :: rest).map (·.2)) := by
        have : (0 : ℚ) < normEps := by norm_num [normEps]
        linarith [not_le.mp hdeg]
      constructor
      · exact div_nonneg (by linarith) (le_of_lt hpos)
      · rw [div_le_one hpos]
        linarith

theorem dkeys_normMap (d : List (String × ℚ)) :
    dkeys (normMap d) = dkeys d := by
  cases d with
  | nil => rfl
  | cons q rest =>
    rw [normMap_cons]
    split_ifs <;> simp [dkeys, List.map_map, Function.comp]

theorem lookupD_not_mem {d : List (String × ℚ)} {k : String} (v₀ : ℚ)
    (h : k ∉ dkeys d) : lookupD d k v₀ = v₀ := by
  unfold lookupD
  rw [List.find?_eq_none.mpr ?_]
  intro p hp hbeq
  exact h (List.mem_map.mpr ⟨p, hp, by simpa using hbeq⟩)

theorem lookupD_normMap_bounds (d : List (String × ℚ)) (k : String) :
    0 ≤ lookupD (normMap d) k 0 ∧ lookupD (normMap d) k 0 ≤ 1 := by
  unfold lookupD
  cases hfind : (normMap d).find? (fun p => p.1 == k) with
  | none => norm_num
  | some p => exact mem_normMap_bounds d p (List.mem_of_find?_eq_some hfind)

theorem convex_bound {α a b : ℚ} (h₀ : 0 ≤ α) (h₁ : α ≤ 1) (ha₀ : 0 ≤ a)
    (ha₁ : a ≤ 1) (hb₀ : 0 ≤ b) (hb₁ : b ≤ 1) :
    0 ≤ α * a + (1 - α) * b ∧ α * a + (1 - α) * b ≤ 1 := by
  constructor <;> nlinarith

theorem mem_materialize {chunks : List Chunk}
    {vMap bmMap : List (String × ℚ)} :
    ∀ {l : List (String × ℚ)} {hits : List Hit},
      materialize chunks vMap bmMap l = some hits →
      ∀ h ∈ hits, ∃ cs ∈ l, h.chunk_id = cs.1 ∧ h.score = cs.2 ∧
        h.vector = lookupD vMap cs.1 0 ∧ h.bm25 = lookupD bmMap cs.1 0 := by
  intro l
  induction l with
  | nil =>
    intro hits hm h hh
    simp only [materialize] at hm
    rw [← (Option.some.inj hm)] at hh
    simp at hh
  | cons cs rest ih =>
    intro hits hm h hh
    obtain ⟨cid, score⟩ := cs
    simp only [materialize] at hm
    cases hcb : chunkById chunks cid with
    | none => rw [hcb] at hm; exact absurd hm (by simp)
    | some c =>
      cases hrec : materialize chunks vMap bmMap rest with
      | none => rw [hcb, hrec] at hm; exact absurd hm (by simp)
      | some hs =>
        rw [hcb, hrec] at hm
        have hm' := Option.some.inj hm
        rw [← hm'] at hh
        rcases List.mem_cons.mp hh with h1 | h1
        · subst h1
          exact ⟨(cid, score), by simp, rfl, rfl, rfl, rfl⟩
        · obtain ⟨cs', hcs', hrest⟩ := ih hrec h h1
          exact ⟨cs', List.mem_cons.mpr (Or.inr hcs'), hrest⟩

theorem mem_fuseScores {alpha : ℚ} {vMap bmMap : List (String × ℚ)}
    {cs : String × ℚ} (h : cs ∈ fuseScores alpha vMap bmMap) :
    cs.2 = alpha * lookupD (normMap vMap) cs.1 0
      + (1 - alpha) * lookupD (normMap bmMap) cs.1 0 := by
  obtain ⟨cid, -, heq⟩ := List.mem_map.mp h
  rw [← heq]

/-- C6: for every built index (arbitrary sub-search candidate lists),
every query, every `k` and every `alpha ∈ [0,1]`, each returned Hit's
score is exactly `alpha` times the min-max-normalized vector score plus
`1 - alpha` times the min-max-normalized BM25 score, a chunk absent from
one method's candidates contributes `0.0` for that method, and the score
lies in `[0,1]`. -/
theorem hybrid_fusion_bounds (alpha : ℚ) (chunks : List Chunk)
    (vHits bmHits : List (String × ℚ)) (k : Int) (hits : List Hit)
    (h₀ : 0 ≤ alpha) (h₁ : alpha ≤ 1)
    (hq : hybridFuse alpha chunks vHits bmHits k = some hits) :
    ∀ hit ∈ hits,
      hit.score = alpha * lookupD (normMap (pyDict vHits)) hit.chunk_id 0
        + (1 - alpha) * lookupD (normMap (pyDict bmHits)) hit.chunk_id 0 ∧
      (hit.chunk_id ∉ dkeys (pyDict vHits) →
        lookupD (normMap (pyDict vHits)) hit.chunk_id 0 = 0) ∧
      (hit.chunk_id ∉ dkeys (pyDict bmHits) →
        lookupD (normMap (pyDict bmHits)) hit.chunk_id 0 = 0) ∧
      0 ≤ hit.score ∧ hit.score ≤ 1 := by
  intro hit hmem
  have hq' : materialize chunks (pyDict vHits) (pyDict bmHits)
      (pySlice (sortDesc (·.2)
        (fuseScores alpha (pyDict vHits) (pyDict bmHits))) k)
      = some hits := hq
  obtain ⟨cs, hcs_top, hid, hscore, -, -⟩ := mem_materialize hq' hit hmem
  have hcs_sorted := pySlice_subset _ k hcs_top
  have hcs_merged : cs ∈ fuseScores alpha (pyDict vHits) (pyDict bmHits) :=
    ((sortDesc_perm (·.2) _).mem_iff).mp hcs_sorted
  have hform := mem_fuseScores hcs_merged
  have hfeq : hit.score
      = alpha * lookupD (normMap (pyDict vHits)) hit.chunk_id 0
        + (1 - alpha) * lookupD (normMap (pyDict bmHits)) hit.chunk_id 0 := by
    rw [hscore, hform, hid]
  refine ⟨hfeq, ?_, ?_, ?_⟩
  · intro hnot
    exact lookupD_not_mem 0 (by rw [dkeys_normMap]; exact hnot)
  · intro hnot
    exact lookupD_not_mem 0 (by rw [dkeys_normMap]; exact hnot)
  · rw [hfeq]
    have hv := lookupD_normMap_bounds (pyDict vHits) hit.chunk_id
    have hb := lookupD_normMap_bounds (pyDict bmHits) hit.chunk_id
    exact convex_bound h₀ h₁ hv.1 hv.2 hb.1 hb.2

/-- Witness for C6 on a concrete fused query. -/
theorem hybrid_fusion_bounds_witness :
    (0 : ℚ) ≤ 1/2 ∧ (1/2 : ℚ) ≤ 1 ∧
    ∀ hit ∈ [(⟨"d-0", "alpha text", "s", 1/2, 2, 0⟩ : Hit)],
      hit.score = (1/2) * lookupD (normMap (pyDict [("d-0", 2)]))
          hit.chunk_id 0
        + (1 - 1/2) * lookupD (normMap (pyDict [])) hit.chunk_id 0 ∧
      (hit.chunk_id ∉ dkeys (pyDict [("d-0", 2)]) →
        lookupD (normMap (pyDict [("d-0", 2)])) hit.chunk_id 0 = 0) ∧
      (hit.chunk_id ∉ dkeys (pyDict []) →
        lookupD (normMap (pyDict [])) hit.chunk_id 0 = 0) ∧
      0 ≤ hit.score ∧ hit.score ≤ 1 :=
  ⟨by norm_num, by norm_num,
   hybrid_fusion_bounds (1/2) [chunkA] [("d-0", 2)] [] 5
     [⟨"d-0", "alpha text", "s", 1/2, 2, 0⟩] (by norm_num) (by norm_num)
     (by norm_num +decide [hybridFuse, fuseScores, idUnion, pyDict, dinsert,
       normMap, listMin, listMax, lookupD, dkeys, sortDesc, insertDesc,
       pySlice, materialize, chunkById, normEps, chunkA, twoSentDoc])⟩

/-! ### C7 — degenerate normalization -/

/-- C7: a non-empty score mapping whose raw scores are pairwise within
`1e-9` of each other normalizes every entry to exactly `1` (in
particular the result is everywhere well defined — no division by the
near-zero spread is attempted, so no NaN/Inf can arise). -/
theorem normMap_degenerate (d : List (String × ℚ)) (hne : d ≠ [])
    (hcl : ∀ a ∈ d.map (·.2), ∀ b ∈ d.map (·.2), |a - b| ≤ normEps) :
    normMap d = d.map (fun p => (p.1, 1)) := by
  cases d with
  | nil => exact absurd rfl hne
  | cons q rest =>
    rw [normMap_cons, if_pos]
    have hvne : (q :: rest).map (·.2) ≠ [] := by simp
    have hmax := listMax_mem hvne
    have hmin := listMin_mem hvne
    calc listMax ((q :: rest).map (·.2)) - listMin ((q :: rest).map (·.2))
        ≤ |listMax ((q :: rest).map (·.2))
            - listMin ((q :: rest).map (·.2))| := le_abs_self _
      _ ≤ normEps := hcl _ hmax _ hmin

/-- Witness for C7 on a concrete all-equal mapping. -/
theorem normMap_degenerate_witness :
    ([(("a" : String), (5 : ℚ)), ("b", 5)] ≠ []) ∧
    normMap [(("a" : String), (5 : ℚ)), ("b", 5)]
      = [(("a" : String), (1 : ℚ)), ("b", 1)] :=
  ⟨by simp,
   by
    have h := normMap_degenerate [(("a" : String), (5 : ℚ)), ("b", 5)]
      (by simp)
      (by
        intro a ha b hb
        simp only [List.map_cons, List.map_nil, List.mem_cons,
          List.not_mem_nil, or_false] at ha hb
        rcases ha with rfl | rfl <;> rcases hb with rfl | rfl <;>
          norm_num [normEps])
    simpa using h⟩

/-! ### C10 — raw component scores on fused hits -/

/-- C10: each returned Hit carries in `vector` and `bm25` the raw
(pre-normalization) score that the respective method assigned to the
chunk, with `0.0` stored when the chunk was absent from that method's
candidates — so a caller observes `0.0` both for a chunk scored `0.0`
and for one never scored. -/
theorem hybrid_hit_raw_scores (alpha : ℚ) (chunks : List Chunk)
    (vHits bmHits : List (String × ℚ)) (k : Int) (hits : List Hit)
    (hq : hybridFuse alpha chunks vHits bmHits k = some hits) :
    ∀ hit ∈ hits,
      hit.vector = lookupD (pyDict vHits) hit.chunk_id 0 ∧
      hit.bm25 = lookupD (pyDict bmHits) hit.chunk_id 0 ∧
      (hit.chunk_id ∉ dkeys (pyDict vHits) → hit.vector = 0) ∧
      (hit.chunk_id ∉ dkeys (pyDict bmHits) → hit.bm25 = 0) := by
  intro hit hmem
  have hq' : materialize chunks (pyDict vHits) (pyDict bmHits)
      (pySlice (sortDesc (·.2)
        (fuseScores alpha (pyDict vHits) (pyDict bmHits))) k)
      = some hits := hq
  obtain ⟨cs, -, hid, -, hvec, hbm⟩ := mem_materialize hq' hit hmem
  rw [← hid] at hvec hbm
  refine ⟨hvec, hbm, ?_, ?_⟩
  · intro hnot
    rw [hvec]
    exact lookupD_not_mem 0 hnot
  · intro hnot
    rw [hbm]
    exact lookupD_not_mem 0 hnot

/-- Witness for C10 on a concrete fused query with one chunk scored only
by the vector method and one scored by both. -/
theorem hybrid_hit_raw_scores_witness :
    sampleHit.vector
      = lookupD (pyDict [("d-0", 2), ("d-1", 1)]) sampleHit.chunk_id 0 ∧
    sampleHit.bm25 = lookupD (pyDict [("d-1", 3)]) sampleHit.chunk_id 0 ∧
    (sampleHit.chunk_id ∉ dkeys (pyDict [("d-0", 2), ("d-1", 1)]) →
      sampleHit.vector = 0) ∧
    (sampleHit.chunk_id ∉ dkeys (pyDict [("d-1", 3)]) →
      sampleHit.bm25 = 0) :=
  hybrid_hit_raw_scores (3/4) [chunkA, chunkB] [("d-0", 2), ("d-1", 1)]
    [("d-1", 3)] 1 [sampleHit]
    (by norm_num +decide [hybridFuse, fuseScores, idUnion, pyDict, dinsert,
      normMap, listMin, listMax, lookupD, dkeys, sortDesc, insertDesc,
      pySlice, materialize, chunkById, normEps, chunkA, chunkB, twoSentDoc,
      sampleHit])
    sampleHit (by simp)

end AiDevLab
